import Mathlib

/-!
Verification of the `build_payload` tool (src/build_payload.cpp).

The source is a single C++ translation unit.  Text produced by the tool is
modelled as `List Char`; byte streams as `List Nat` (each element a value of
a C `unsigned char`, hence `< 256` in every real run).  Machine `unsigned`
arithmetic (32-bit) is modelled with explicit wrapping where the source can
wrap.  The zlib deflate routine used through Qt's `qCompress` is external to
the repository; it is abstracted as a function parameter, and the framing
that `qCompress`/`qUncompress` add around it is modelled from the spec.
-/

namespace BuildPayload

/-- Modulus of the C `unsigned` type (32 bits). -/
def U32 : Nat := 4294967296

/-- C `unsigned` subtraction `a - b` (wrapping modulo `2^32`). -/
def wsub (a b : Nat) : Nat := (a % U32 + (U32 - b % U32)) % U32

/-- `n` spaces, as produced by the indent-building loops
(src/build_payload.cpp:91-99). -/
def spaces (n : Nat) : List Char := List.replicate n ' '

/-- Uppercase hexadecimal digit character for `n < 16`,
as printed by `sprintf("%02X", ...)`. -/
def hexDigitU (n : Nat) : Char :=
  if n < 10 then Char.ofNat (48 + n) else Char.ofNat (55 + n)

/-- The token `sprintf(buffer, "0x%02X", v)` emits for one byte
(src/build_payload.cpp:118-119).  A C `unsigned char` value is `< 256`, so
the rendering is always exactly two uppercase hex digits. -/
def hexByte (v : Nat) : List Char :=
  '0' :: 'x' :: [hexDigitU (v % 256 / 16), hexDigitU (v % 16)]

/-- Decimal digit character for `n < 10`. -/
def digitChar (n : Nat) : Char := Char.ofNat (48 + n)

/-- Fuel-driven decimal rendering of a natural number. -/
def natReprAux : Nat → Nat → List Char
  | 0, _ => []
  | fuel + 1, n =>
    if n < 10 then [digitChar n]
    else natReprAux fuel (n / 10) ++ [digitChar (n % 10)]

/-- Decimal rendering of a natural number, as `operator<<` prints an
`unsigned long`. -/
def natRepr (n : Nat) : List Char := natReprAux (n + 1) n

/-- The input-reading loop of `parseAndDumpInput`
(src/build_payload.cpp:82-86).  The loop tests the stream *before* each
one-byte read and pushes `readData` unconditionally, so after the last byte
of the stream is consumed one further read fails and the (indeterminate)
value of `readData` — modelled by the parameter `junk` — is still pushed. -/
def readLoop : List Nat → Nat → List Nat
  | [], junk => [junk]
  | b :: rest, junk => b :: readLoop rest junk

/-- The length of `bytes` as the 4-byte big-endian value `qCompress`
prepends. -/
def be32 (n : Nat) : List Nat :=
  [n / 16777216 % 256, n / 65536 % 256, n / 256 % 256, n % 256]

/-- Big-endian decoding of a 4-byte block. -/
def decodeBe32 (l : List Nat) : Nat :=
  match l with
  | [a, b, c, d] => a * 16777216 + b * 65536 + c * 256 + d
  | _ => 0

/-- Modelled from the spec: Qt's `qCompress(data, 9)`
(src/build_payload.cpp:89) is external library code, not part of src/.  Per
the spec (§4.1) it writes the *uncompressed* length of `bytes` as a 4-byte
big-endian unsigned integer and appends the deflate compression of `bytes`
at the highest compression level; the deflate stage itself is abstracted by
the parameter `deflate`. -/
def qCompressModel (deflate : List Nat → List Nat) (bytes : List Nat) : List Nat :=
  be32 bytes.length ++ deflate bytes

/-- Modelled from the spec: the decoder side of the fixed framing
(`qUncompress`, the "compatibility contract" of §1/§3) — not part of src/.
It strips the 4-byte big-endian length header, inflates the remainder, and
checks the inflated length against the header. -/
def qUncompressModel (inflate : List Nat → Option (List Nat)) (blk : List Nat) :
    Option (List Nat) :=
  match blk with
  | a :: b :: c :: d :: rest =>
    match inflate rest with
    | some out => if out.length % U32 = decodeBe32 [a, b, c, d] then some out else none
    | none => none
  | _ => none

/-- The compression stage of `parseAndDumpInput`
(src/build_payload.cpp:88-89): `zlibCompress ? qCompress(byteArray, 9) :
byteArray`. -/
def compressStage (deflate : List Nat → List Nat) (bytes : List Nat)
    (zlibCompress : Bool) : List Nat :=
  if zlibCompress then qCompressModel deflate bytes else bytes

/-- `valuesPerLine  = (width - indentation - leftIndentation + 1) / 6`
(src/build_payload.cpp:106), with the source's `unsigned` wrapping
arithmetic. -/
def valuesPerLine (width indentation leftIndentation : Nat) : Nat :=
  (wsub (wsub width indentation) leftIndentation + 1) % U32 / 6

/-- The byte-dumping loop of `parseAndDumpInput`
(src/build_payload.cpp:108-125).  `contInd` is the content indentation
string, `vpl` the per-line value count, and the last argument the running
`valuesThisLine` counter (initialised to `vpl` by the caller).  A newline
plus `contInd` precedes a byte whenever the counter has reached `vpl`; a
`", "` separator follows every byte but the last. -/
def dumpBytesLoop (contInd : List Char) (vpl : Nat) :
    List Nat → Nat → List Char
  | [], _ => []
  | v :: rest, valuesThisLine =>
    let pre := if valuesThisLine ≥ vpl then '\n' :: contInd else []
    let next := if valuesThisLine ≥ vpl then 1 else valuesThisLine + 1
    let sep := if rest = [] then [] else [',', ' ']
    pre ++ hexByte v ++ sep ++ dumpBytesLoop contInd vpl rest next

/-- The formatting configuration a single `parseAndDumpInput` call receives
(src/build_payload.cpp:68-79). -/
structure DumpConfig where
  leftIndentation : Nat
  indentation : Nat
  width : Nat
  pfx : List Char
  variableName : List Char
  variableType : List Char
  sizeVariableName : List Char
  sizeVariableType : List Char
  zlibCompress : Bool

/-- The text `parseAndDumpInput` writes to its output stream for an already
compressed (or passed-through) byte sequence `outputData`
(src/build_payload.cpp:91-132): header line, wrapped contents, closing
brace, blank line, size declaration, blank line. -/
def renderDump (cfg : DumpConfig) (outputData : List Nat) : List Char :=
  let leftInd := spaces cfg.leftIndentation
  let contInd := spaces (cfg.leftIndentation + cfg.indentation)
  let numberBytes := outputData.length
  let vpl := valuesPerLine cfg.width cfg.indentation cfg.leftIndentation
  leftInd ++ cfg.variableType ++ [' '] ++ cfg.pfx ++ cfg.variableName
    ++ ['['] ++ natRepr numberBytes ++ (']' :: ' ' :: '=' :: ' ' :: ['\x7b'])
    ++ dumpBytesLoop contInd vpl outputData vpl
    ++ ['\n'] ++ leftInd ++ ('\x7d' :: [';']) ++ ['\n'] ++ ['\n']
    ++ leftInd ++ cfg.sizeVariableType ++ [' '] ++ cfg.pfx ++ cfg.sizeVariableName
    ++ (' ' :: '=' :: [' ']) ++ natRepr numberBytes ++ [';'] ++ ['\n'] ++ ['\n']

/-- `parseAndDumpInput` (src/build_payload.cpp:68-135): reads the stream to
end (appending the indeterminate `junk` byte, see `readLoop`), optionally
compresses, renders the declarations, and returns `true` unconditionally
(line 134).  Returns the produced text and the success flag. -/
def parseAndDumpInput (deflate : List Nat → List Nat) (stream : List Nat)
    (junk : Nat) (cfg : DumpConfig) : List Char × Bool :=
  let inputBuffer := readLoop stream junk
  let outputData := compressStage deflate inputBuffer cfg.zlibCompress
  (renderDump cfg outputData, true)

/-- Position of the last occurrence of `t` in `s`, as `std::string::rfind`
returns it (`std::string::npos` is modelled by `none`),
src/build_payload.cpp:279-280. -/
def rfindChar : List Char → Char → Option Nat
  | [], _ => none
  | c :: rest, t =>
    match rfindChar rest t with
    | some i => some (i + 1)
    | none => if c = t then some 0 else none

/-- The `std::replace(prefix.begin(), prefix.end(), '.', '_')` step
(src/build_payload.cpp:298). -/
def dotToUnderscore (c : Char) : Char := if c = '.' then '_' else c

/-- The per-file variable-name fragment derivation of `buildPayloadHelper`
(src/build_payload.cpp:279-298): take the substring after the last `'/'` or
`'\'` (the later position when both occur, the whole name when neither
occurs) and replace every `'.'` with `'_'`. -/
def pfxFromPath (s : List Char) : List Char :=
  let f := rfindChar s '/'
  let b := rfindChar s '\\'
  let base :=
    match f, b with
    | some fp, some bp => s.drop (max fp bp + 1)
    | some fp, none => s.drop (fp + 1)
    | none, some bp => s.drop (bp + 1)
    | none, none => s
  base.map dotToUnderscore

/-- The lines `std::getline` yields from an `istringstream` over `s`:
segments between newlines, with no final empty segment when `s` ends in a
newline and no segment at all for the empty string
(src/build_payload.cpp:194-198, 213-217). -/
def getlines : List Char → List (List Char)
  | [] => []
  | c :: rest =>
    if c = '\n' then [] :: getlines rest
    else
      match getlines rest with
      | [] => [[c]]
      | l :: ls => (c :: l) :: ls

/-- A run of `n` `'*'` characters, as the banner loops print. -/
def starRun (n : Nat) : List Char := List.replicate n '*'

/-- The comment banner `buildPayloadHelper` writes before any payload
(src/build_payload.cpp:186-225).  The three star-run loops iterate
`for col = 13; col <= width`, `for col = 1; col <= width - 4` and
`for col = 1; col <= width - 1` with `unsigned` bounds, hence the
`width - 12` (natural truncation, matching the loop count) and `wsub`
counts. -/
def bannerText (description copyrightMessage : List Char)
    (noCopyrightMessage : Bool) (width : Nat) : List Char :=
  if noCopyrightMessage ∧ description = [] then []
  else
    ('/' :: '*' :: '-' :: '*' :: '-' :: 'c' :: '+' :: '+' :: '-' :: '*' :: '-' :: ['*'])
    ++ starRun (width - 12) ++ ['\n']
    ++ (if noCopyrightMessage then []
        else ((getlines copyrightMessage).map
          (fun l => '*' :: ' ' :: l ++ ['\n'])).flatten)
    ++ (if ¬noCopyrightMessage ∧ description ≠ [] then
          starRun (wsub width 4) ++ ('/' :: '/' :: '*' :: ['*']) ++ ['\n']
        else [])
    ++ (if description ≠ [] then
          ('*' :: ' ' :: '\\' :: 'f' :: 'i' :: 'l' :: 'e' :: ['\n']) ++ ('*' :: ['\n'])
          ++ ((getlines description).map (fun l => '*' :: ' ' :: l ++ ['\n'])).flatten
        else [])
    ++ starRun (wsub width 1) ++ ('/' :: ['\n']) ++ ['\n']

/-- The diagnostic written to `std::cerr` on an input-open failure.  Both
the single-input branch (src/build_payload.cpp:268) and the multi-input
branch (line 319) print `inputs.at(0)`, i.e. the *first* configured input
path, after this text. -/
def openErrText (name : List Char) : List Char :=
  ('*' :: '*' :: '*' :: ' ' :: 'C' :: 'o' :: 'u' :: 'l' :: 'd' :: ' ' :: 'n' :: 'o'
    :: 't' :: ' ' :: 'o' :: 'p' :: 'e' :: 'n' :: ' ' :: 'i' :: 'n' :: 'p' :: 'u'
    :: 't' :: ' ' :: 'f' :: 'i' :: 'l' :: 'e' :: [' ']) ++ name ++ ['\n']

/-- The multi-input `while` loop of `buildPayloadHelper`
(src/build_payload.cpp:271-322).  `openF` models `std::ifstream` opening (a
file's byte stream, or `none` on failure), `junk` the indeterminate byte the
failed final read of each file appends, and `first` the value of
`inputs.at(0)` — which is what the error diagnostic prints even when a later
input is the one that failed.  Returns the output text, the `cerr` text, and
the success flag; on the first failure the loop stops, keeping the output of
earlier inputs. -/
def multiLoop (deflate : List Nat → List Nat)
    (openF : List Char → Option (List Nat)) (junk : List Char → Nat)
    (mkCfg : List Char → DumpConfig) (first : List Char) :
    List (List Char) → List Char × List Char × Bool
  | [] => ([], [], true)
  | fn :: rest =>
    match openF fn with
    | some bytes =>
      let r := parseAndDumpInput deflate bytes (junk fn) (mkCfg (pfxFromPath fn))
      let tail := multiLoop deflate openF junk mkCfg first rest
      (('/' :: '/' :: ' ' :: 'C' :: 'o' :: 'n' :: 't' :: 'e' :: 'n' :: 't' :: 's'
          :: ' ' :: 'o' :: 'f' :: [' ']) ++ fn ++ (':' :: ['\n'])
        ++ r.1 ++ tail.1, tail.2.1, tail.2.2)
    | none => ([], openErrText first, false)

/-- `buildPayloadHelper` (src/build_payload.cpp:169-327): banner, optional
namespace opening (which sets `leftIndentation` to `indentation`), then
stdin / single-file / multi-file dispatch.  Returns the text written to the
output stream, the text written to `cerr`, and the success flag. -/
def buildPayloadHelper (deflate : List Nat → List Nat)
    (openF : List Char → Option (List Nat)) (stdinStream : List Nat)
    (junk : List Char → Nat) (stdinJunk : Nat) (inputs : List (List Char))
    (description copyrightMessage : List Char) (noCopyrightMessage : Bool)
    (indentation width : Nat) (namespaceName : List Char)
    (variableName variableType sizeVariableName sizeVariableType : List Char)
    (zlibCompress : Bool) : List Char × List Char × Bool :=
  let banner := bannerText description copyrightMessage noCopyrightMessage width
  let nsOut : List Char :=
    if namespaceName = [] then []
    else ('n' :: 'a' :: 'm' :: 'e' :: 's' :: 'p' :: 'a' :: 'c' :: 'e' :: [' '])
      ++ namespaceName ++ ('\x7b' :: ['\n'])
  let leftIndentation := if namespaceName = [] then 0 else indentation
  let mkCfg : List Char → DumpConfig := fun p =>
    ⟨leftIndentation, indentation, width, p, variableName, variableType,
      sizeVariableName, sizeVariableType, zlibCompress⟩
  let body : List Char × List Char × Bool :=
    match inputs with
    | [] =>
      let r := parseAndDumpInput deflate stdinStream stdinJunk (mkCfg [])
      (r.1, [], r.2)
    | [fn] =>
      match openF fn with
      | some bytes =>
        let r := parseAndDumpInput deflate bytes (junk fn) (mkCfg [])
        (r.1, [], r.2)
      | none => ([], openErrText fn, false)
    | fn :: rest => multiLoop deflate openF junk mkCfg fn (fn :: rest)
  (banner ++ nsOut ++ body.1, body.2.1, body.2.2)

/-! ### Spec-side definitions

The following definitions formalise the *spec's* description of the output
(wrapped lines, token grouping, hex encoding, basename extraction); the
theorems below compare them with the source-derived definitions above. -/

/-- Split a text into its lines at `'\n'` (a trailing newline yields a final
empty segment; the empty text is one empty line). -/
def splitLines : List Char → List (List Char)
  | [] => [[]]
  | c :: rest =>
    if c = '\n' then [] :: splitLines rest
    else
      match splitLines rest with
      | [] => [[c]]
      | l :: ls => (c :: l) :: ls

/-- Prepend `a` to the first segment of a line list. -/
def consHead (a : List Char) : List (List Char) → List (List Char)
  | [] => [a]
  | l :: ls => (a ++ l) :: ls

/-- Reference rendering of an arbitrary token list with the Array
Formatter's wrapping discipline: a newline plus `contInd` before each group
of `vpl` tokens, `", "` after every token but the last (spec §4.3). -/
def renderTokens (contInd : List Char) (vpl : Nat) :
    List (List Char) → Nat → List Char
  | [], _ => []
  | t :: rest, valuesThisLine =>
    let pre := if valuesThisLine ≥ vpl then '\n' :: contInd else []
    let next := if valuesThisLine ≥ vpl then 1 else valuesThisLine + 1
    let sep := if rest = [] then [] else [',', ' ']
    pre ++ t ++ sep ++ renderTokens contInd vpl rest next

/-- Join tokens, each followed by `", "` (the shape of a non-final wrapped
line, whose separator toward the next line's first token trails it). -/
def sepJoinAll : List (List Char) → List Char
  | [] => []
  | t :: rest => t ++ (',' :: [' ']) ++ sepJoinAll rest

/-- Join tokens with `", "` between them and nothing trailing (the shape of
the final wrapped line). -/
def sepJoinLast : List (List Char) → List Char
  | [] => []
  | [t] => t
  | t :: rest => t ++ (',' :: [' ']) ++ sepJoinLast rest

/-- Fuel-driven chunking auxiliary. -/
def chunksOfAux (k : Nat) : Nat → List α → List (List α)
  | 0, _ => []
  | _, [] => []
  | fuel + 1, l => l.take k :: chunksOfAux k fuel (l.drop k)

/-- The groups of (at most) `k` consecutive elements of `l` (spec §4.3:
"output wraps every `valuesPerLine` entries starting from the first"). -/
def chunksOf (k : Nat) (l : List α) : List (List α) := chunksOfAux k l.length l

/-- Render a chunk list: each chunk on its own line, prefixed by a newline
and `contInd`; every token of a non-final chunk trails `", "`, the final
chunk's tokens are joined with `", "` and nothing after the last. -/
def renderChunksAux (contInd : List Char) : List (List (List Char)) → List Char
  | [] => []
  | [c] => '\n' :: contInd ++ sepJoinLast c
  | c :: rest => '\n' :: contInd ++ sepJoinAll c ++ renderChunksAux contInd rest

/-- The line list `renderChunksAux` produces (first, empty segment
excluded). -/
def specLines (contInd : List Char) : List (List (List Char)) → List (List Char)
  | [] => []
  | [c] => [contInd ++ sepJoinLast c]
  | c :: rest => (contInd ++ sepJoinAll c) :: specLines contInd rest

/-- Value of an uppercase hexadecimal digit character. -/
def hexVal (c : Char) : Option Nat :=
  if '0' ≤ c ∧ c ≤ '9' then some (c.toNat - 48)
  else if 'A' ≤ c ∧ c ≤ 'F' then some (c.toNat - 55) else none

/-- Decode a token of the exact shape `0xHH` (two uppercase hexadecimal
digits) back to its byte value. -/
def decodeTok : List Char → Option Nat
  | ['0', 'x', d1, d2] =>
    match hexVal d1, hexVal d2 with
    | some a, some b => some (16 * a + b)
    | _, _ => none
  | _ => none

/-- `true` on characters that are not path separators. -/
def notSep (c : Char) : Bool := !(c = '/' || c = '\\')

/-- Spec-side basename extraction (§4.2): everything after the last path
separator — the maximal separator-free suffix. -/
def afterLastSep (s : List Char) : List Char :=
  (s.reverse.takeWhile notSep).reverse

/-! ### Shared lemmas and concrete configurations -/

/-- The tool's default configuration (src/build_payload.cpp:431-437) with
compression disabled and no namespace (`leftIndentation = 0`). -/
def cfgDefault : DumpConfig :=
  ⟨0, 4, 120, [], "declarations".toList, "static const unsigned char".toList,
    "declarationsSize".toList, "static const unsigned long".toList, false⟩

/-- A concrete file oracle: every path opens (with contents `[0x01]`)
except `missing.bin`. -/
def demoOpen : List Char → Option (List Nat) := fun fn =>
  if fn = "missing.bin".toList then none else some [1]

/-- A concrete three-input run `a.bin missing.bin c.bin` with default
options, no banner, no namespace, compression disabled. -/
def demoRunMulti : List Char × List Char × Bool :=
  buildPayloadHelper (fun b => b) demoOpen [] (fun _ => 0) 0
    ["a.bin".toList, "missing.bin".toList, "c.bin".toList] [] [] true 4 120 []
    "declarations".toList "static const unsigned char".toList
    "declarationsSize".toList "static const unsigned long".toList false

/-- A concrete two-input run `a.bin b.bin` under namespace `N` with default
options, no banner, compression disabled. -/
def demoRunNs : List Char × List Char × Bool :=
  buildPayloadHelper (fun b => b) demoOpen [] (fun _ => 0) 0
    ["a.bin".toList, "b.bin".toList] [] [] true 4 120 "N".toList
    "declarations".toList "static const unsigned char".toList
    "declarationsSize".toList "static const unsigned long".toList false

/-! ### Helper lemmas -/

/-- The read loop always returns the whole stream plus one extra
(indeterminate) byte. -/
theorem readLoop_eq (stream : List Nat) (junk : Nat) :
    readLoop stream junk = stream ++ [junk] := by
  induction stream with
  | nil => rfl
  | cons b rest ih => simp [readLoop, ih]

/-- Big-endian framing decodes back to the length modulo `2^32`. -/
theorem decodeBe32_be32 (n : Nat) : decodeBe32 (be32 n) = n % U32 := by
  simp only [be32, decodeBe32, U32]
  omega

/-- The characters emitted for a hex digit are never `'x'`, `','`, `'\n'`
or `' '`. -/
theorem hexDigitU_ne : ∀ n < 16, hexDigitU n ≠ 'x' ∧ hexDigitU n ≠ ',' ∧
    hexDigitU n ≠ '\n' ∧ hexDigitU n ≠ ' ' := by decide

/-- Each emitted token contains exactly one `'x'`. -/
theorem count_x_hexByte (v : Nat) : (hexByte v).count 'x' = 1 := by
  have h1 := hexDigitU_ne (v % 256 / 16) (by omega)
  have h2 := hexDigitU_ne (v % 16) (by omega)
  simp [hexByte, List.count_cons, h1.1, h2.1]

/-- Each emitted token contains no `','`. -/
theorem count_comma_hexByte (v : Nat) : (hexByte v).count ',' = 0 := by
  have h1 := hexDigitU_ne (v % 256 / 16) (by omega)
  have h2 := hexDigitU_ne (v % 16) (by omega)
  simp [hexByte, List.count_cons, h1.2.1, h2.2.1]

/-- The dump loop emits exactly the hex tokens of its bytes, in order, with
the wrapping discipline of `renderTokens`. -/
theorem dumpBytesLoop_eq_renderTokens (contInd : List Char) (vpl : Nat) :
    ∀ (bytes : List Nat) (s : Nat),
      dumpBytesLoop contInd vpl bytes s =
        renderTokens contInd vpl (bytes.map hexByte) s := by
  intro bytes
  induction bytes with
  | nil => intro s; rfl
  | cons v rest ih =>
    intro s
    simp only [dumpBytesLoop, renderTokens, List.map_cons, ih,
      List.map_eq_nil_iff]

/-- The dump loop's output contains one `'x'` per input byte, provided the
content indentation contains none. -/
theorem dumpBytesLoop_count_x (contInd : List Char) (vpl : Nat)
    (hc : contInd.count 'x' = 0) :
    ∀ (bytes : List Nat) (s : Nat),
      (dumpBytesLoop contInd vpl bytes s).count 'x' = bytes.length := by
  intro bytes
  induction bytes with
  | nil => intro s; rfl
  | cons v rest ih =>
    intro s
    simp only [dumpBytesLoop, List.count_append, count_x_hexByte, ih]
    have hpre : ∀ c : Prop, ∀ [Decidable c],
        ((if c then '\n' :: contInd else []).count 'x') = 0 := by
      intro c _; split <;> simp [List.count_cons, hc]
    have hsep : ((if rest = [] then [] else [',', ' ']).count 'x') = 0 := by
      split <;> decide
    rw [hpre, hsep]
    simp only [List.length_cons]
    omega

/-- The dump loop's output contains one `", "` separator per input byte
except the last (no separator at all for the empty sequence), provided the
content indentation contains no comma. -/
theorem dumpBytesLoop_count_comma (contInd : List Char) (vpl : Nat)
    (hc : contInd.count ',' = 0) :
    ∀ (bytes : List Nat) (s : Nat),
      (dumpBytesLoop contInd vpl bytes s).count ',' = bytes.length - 1 := by
  intro bytes
  induction bytes with
  | nil => intro s; rfl
  | cons v rest ih =>
    intro s
    simp only [dumpBytesLoop, List.count_append, count_comma_hexByte, ih]
    have hpre : ∀ c : Prop, ∀ [Decidable c],
        ((if c then '\n' :: contInd else []).count ',') = 0 := by
      intro c _; split <;> simp [List.count_cons, hc]
    rw [hpre]
    cases rest with
    | nil => simp
    | cons b bs => simp; omega

set_option maxRecDepth 8192 in
/-- Every byte value decodes back from its emitted token. -/
theorem decodeTok_hexByte : ∀ v < 256, decodeTok (hexByte v) = some v := by
  decide

/-- Chunking is fuel-insensitive once the fuel covers the list length. -/
theorem chunksOfAux_congr {α : Type} (k : Nat) (hk : 1 ≤ k) :
    ∀ (f g : Nat) (l : List α), l.length ≤ f → l.length ≤ g →
      chunksOfAux k f l = chunksOfAux k g l := by
  intro f
  induction f with
  | zero =>
    intro g l hf _
    have : l = [] := List.eq_nil_of_length_eq_zero (Nat.le_zero.mp hf)
    subst this
    cases g <;> rfl
  | succ f ih =>
    intro g l hf hg
    cases l with
    | nil => cases g <;> rfl
    | cons x xs =>
      cases g with
      | zero => simp at hg
      | succ g =>
        simp only [chunksOfAux]
        congr 1
        have h1 : ((x :: xs).drop k).length ≤ f := by
          simp only [List.length_drop, List.length_cons]
          simp only [List.length_cons] at hf
          omega
        have h2 : ((x :: xs).drop k).length ≤ g := by
          simp only [List.length_drop, List.length_cons]
          simp only [List.length_cons] at hg
          omega
        exact ih g _ h1 h2

/-- Unfolding equation for `chunksOf` on a nonempty list. -/
theorem chunksOf_cons {α : Type} (k : Nat) (hk : 1 ≤ k) (l : List α)
    (hl : l ≠ []) :
    chunksOf k l = l.take k :: chunksOf k (l.drop k) := by
  cases l with
  | nil => exact absurd rfl hl
  | cons x xs =>
    show chunksOfAux k (x :: xs).length (x :: xs) = _
    simp only [List.length_cons, chunksOfAux]
    congr 1
    apply chunksOfAux_congr k hk
    · simp only [List.length_drop, List.length_cons]
      omega
    · exact le_rfl

/-- A nonempty list has a nonempty chunk list. -/
theorem chunksOf_ne_nil {α : Type} (k : Nat) (hk : 1 ≤ k) (l : List α)
    (hl : l ≠ []) : chunksOf k l ≠ [] := by
  rw [chunksOf_cons k hk l hl]
  simp

/-- Unfolding equation for `renderChunksAux` when more chunks follow. -/
theorem renderChunksAux_cons (contInd : List Char) (c : List (List Char))
    (cs : List (List (List Char))) (h : cs ≠ []) :
    renderChunksAux contInd (c :: cs) =
      '\n' :: contInd ++ sepJoinAll c ++ renderChunksAux contInd cs := by
  cases cs with
  | nil => exact absurd rfl h
  | cons c2 cs' => rfl

/-- Unfolding equation for `sepJoinLast` on two or more tokens. -/
theorem sepJoinLast_cons (t : List Char) (rest : List (List Char))
    (h : rest ≠ []) :
    sepJoinLast (t :: rest) = t ++ (',' :: [' ']) ++ sepJoinLast rest := by
  cases rest with
  | nil => exact absurd rfl h
  | cons r rs => rfl

/-- Mid-line invariant of the wrapping loop, fitting case: called with
counter `j` and few enough tokens to finish the current line, the loop
emits them joined by `", "` with no further line break. -/
theorem renderTokens_fits (contInd : List Char) (k : Nat) :
    ∀ (toks : List (List Char)) (j : Nat), toks.length ≤ k + 1 - j →
      renderTokens contInd (k + 1) toks j = sepJoinLast toks := by
  intro toks
  induction toks with
  | nil => intro j _; rfl
  | cons t rest ih =>
    intro j hlen
    simp only [List.length_cons] at hlen
    have hjlt : ¬(k + 1 ≤ j) := by omega
    simp only [renderTokens, if_neg hjlt, List.nil_append]
    cases rest with
    | nil => simp [renderTokens, sepJoinLast]
    | cons r rs =>
      rw [if_neg (by simp : ¬(r :: rs = [])),
        ih (j + 1) (by simp only [List.length_cons] at *; omega),
        sepJoinLast_cons t (r :: rs) (by simp)]

/-- Mid-line invariant of the wrapping loop, overflow case: called with
counter `j ≤ vpl` and more tokens than fit on the current line, the loop
fills the current line with `vpl - j` tokens (each trailing `", "`) and
renders the remainder chunk by chunk. -/
theorem renderTokens_overflow (contInd : List Char) (k : Nat) :
    ∀ (toks : List (List Char)) (j : Nat), j ≤ k + 1 →
      k + 1 - j < toks.length →
      renderTokens contInd (k + 1) toks j =
        sepJoinAll (toks.take (k + 1 - j))
          ++ renderChunksAux contInd (chunksOf (k + 1) (toks.drop (k + 1 - j))) := by
  intro toks
  induction toks with
  | nil =>
    intro j _ hover
    simp at hover
  | cons t rest ih =>
    intro j hj hover
    simp only [List.length_cons] at hover
    by_cases hjv : k + 1 ≤ j
    · have hj0 : k + 1 - j = 0 := by omega
      rw [hj0]
      simp only [renderTokens, if_pos hjv, List.take_zero, List.drop_zero,
        sepJoinAll, List.nil_append]
      rw [chunksOf_cons (k + 1) (by omega) (t :: rest) (by simp)]
      by_cases hrest : rest.length ≤ k
      · have hdrop : (t :: rest).drop (k + 1) = [] :=
          List.drop_eq_nil_of_le (by simp only [List.length_cons]; omega)
        have htake : (t :: rest).take (k + 1) = t :: rest :=
          List.take_of_length_le (by simp only [List.length_cons]; omega)
        rw [htake, hdrop]
        have hch : ∀ c : List (List Char),
            renderChunksAux contInd (c :: chunksOf (k + 1) ([] : List (List Char))) =
              '\n' :: contInd ++ sepJoinLast c := fun c => rfl
        rw [hch]
        cases rest with
        | nil => simp [renderTokens, sepJoinLast]
        | cons r rs =>
          rw [if_neg (by simp : ¬(r :: rs = [])),
            renderTokens_fits contInd k (r :: rs) 1 (by omega),
            sepJoinLast_cons t (r :: rs) (by simp)]
          simp [List.append_assoc]
      · push_neg at hrest
        have hrne : rest ≠ [] := by
          intro h0; subst h0; simp at hrest
        have hdropne : rest.drop k ≠ [] := by
          intro h0
          have := congrArg List.length h0
          simp only [List.length_drop, List.length_nil] at this
          omega
        rw [if_neg hrne, ih 1 (by omega) (by simp only [Nat.add_sub_cancel]; omega)]
        simp only [Nat.add_sub_cancel]
        rw [List.take_succ_cons, List.drop_succ_cons,
          renderChunksAux_cons contInd _ _
            (chunksOf_ne_nil (k + 1) (by omega) _ hdropne)]
        simp [sepJoinAll, List.append_assoc]
    · have hrne : rest ≠ [] := by
        intro h0; subst h0
        simp only [List.length_nil] at hover
        omega
      simp only [renderTokens, if_neg hjv, List.nil_append, if_neg hrne]
      rw [ih (j + 1) (by omega) (by omega)]
      have hm : k + 1 - j = (k + 1 - (j + 1)) + 1 := by omega
      rw [hm, List.take_succ_cons, List.drop_succ_cons]
      simp [sepJoinAll, List.append_assoc]

/-- The top-level wrapping loop call renders exactly the chunk structure:
one line per group of `vpl` tokens. -/
theorem renderTokens_top_eq_chunks (contInd : List Char) (k : Nat)
    (toks : List (List Char)) :
    renderTokens contInd (k + 1) toks (k + 1) =
      renderChunksAux contInd (chunksOf (k + 1) toks) := by
  cases toks with
  | nil => rfl
  | cons t rest =>
    rw [renderTokens_overflow contInd k (t :: rest) (k + 1) le_rfl
      (by simp only [Nat.sub_self, List.length_cons]; omega)]
    simp [Nat.sub_self, sepJoinAll]

/-- Every chunk except the last has exactly `k` elements. -/
theorem chunksOf_dropLast_length {α : Type} (k : Nat) (hk : 1 ≤ k) :
    ∀ (n : Nat) (l : List α), l.length ≤ n →
      ∀ c ∈ (chunksOf k l).dropLast, c.length = k := by
  intro n
  induction n with
  | zero =>
    intro l hl c hc
    have : l = [] := List.eq_nil_of_length_eq_zero (Nat.le_zero.mp hl)
    subst this
    simp [chunksOf, chunksOfAux] at hc
  | succ n ih =>
    intro l hl c hc
    by_cases hnil : l = []
    · subst hnil
      simp [chunksOf, chunksOfAux] at hc
    · rw [chunksOf_cons k hk l hnil] at hc
      by_cases hsmall : l.length ≤ k
      · rw [List.drop_eq_nil_of_le hsmall] at hc
        simp [chunksOf, chunksOfAux] at hc
      · push_neg at hsmall
        have hdropne : l.drop k ≠ [] := by
          intro h0
          have := congrArg List.length h0
          simp only [List.length_drop, List.length_nil] at this
          omega
        rw [List.dropLast_cons_of_ne_nil (chunksOf_ne_nil k hk _ hdropne)] at hc
        rcases List.mem_cons.mp hc with h | h
        · subst h
          rw [List.length_take]
          omega
        · exact ih (l.drop k) (by simp only [List.length_drop]; omega) c h

/-- The last chunk has `l.length % k` elements (`k` when the remainder is
0 and `l` is nonempty). -/
theorem chunksOf_getLast_length {α : Type} (k : Nat) (hk : 1 ≤ k) :
    ∀ (n : Nat) (l : List α), l.length ≤ n → l ≠ [] →
      ∃ c, (chunksOf k l).getLast? = some c ∧
        c.length = if l.length % k = 0 then k else l.length % k := by
  intro n
  induction n with
  | zero =>
    intro l hl hnil
    exact absurd (List.eq_nil_of_length_eq_zero (Nat.le_zero.mp hl)) hnil
  | succ n ih =>
    intro l hl hnil
    rw [chunksOf_cons k hk l hnil]
    by_cases hsmall : l.length ≤ k
    · rw [List.drop_eq_nil_of_le hsmall]
      refine ⟨l.take k, by simp [chunksOf, chunksOfAux], ?_⟩
      rw [List.take_of_length_le hsmall]
      have hpos : 0 < l.length := List.length_pos.mpr hnil
      by_cases heq : l.length = k
      · rw [heq]
        simp
      · have hlt : l.length < k := by omega
        rw [if_neg (by rw [Nat.mod_eq_of_lt hlt]; omega), Nat.mod_eq_of_lt hlt]
    · push_neg at hsmall
      have hdropne : l.drop k ≠ [] := by
        intro h0
        have := congrArg List.length h0
        simp only [List.length_drop, List.length_nil] at this
        omega
      obtain ⟨c, hc1, hc2⟩ :=
        ih (l.drop k) (by simp only [List.length_drop]; omega) hdropne
      refine ⟨c, ?_, ?_⟩
      · have hne : chunksOf k (l.drop k) ≠ [] := chunksOf_ne_nil k hk _ hdropne
        cases hcs : chunksOf k (l.drop k) with
        | nil => exact absurd hcs hne
        | cons c2 cs2 =>
          rw [List.getLast?_cons_cons]
          rw [hcs] at hc1
          exact hc1
      · rw [List.length_drop] at hc2
        rw [Nat.mod_eq_sub_mod (by omega : k ≤ l.length)]
        exact hc2

/-- Every element of a chunk comes from the chunked list. -/
theorem chunksOf_mem_mem {α : Type} (k : Nat) (hk : 1 ≤ k) :
    ∀ (n : Nat) (l : List α), l.length ≤ n →
      ∀ c ∈ chunksOf k l, ∀ t ∈ c, t ∈ l := by
  intro n
  induction n with
  | zero =>
    intro l hl c hc t ht
    have : l = [] := List.eq_nil_of_length_eq_zero (Nat.le_zero.mp hl)
    subst this
    simp [chunksOf, chunksOfAux] at hc
  | succ n ih =>
    intro l hl c hc t ht
    by_cases hnil : l = []
    · subst hnil
      simp [chunksOf, chunksOfAux] at hc
    · rw [chunksOf_cons k hk l hnil] at hc
      rcases List.mem_cons.mp hc with h | h
      · subst h
        exact List.take_subset k l ht
      · exact List.drop_subset k l
          (ih (l.drop k) (by simp only [List.length_drop]; omega) c h t ht)

/-- A non-final wrapped line contains one `'x'` per token. -/
theorem count_x_sepJoinAll (c : List (List Char))
    (h : ∀ t ∈ c, t.count 'x' = 1) :
    (sepJoinAll c).count 'x' = c.length := by
  induction c with
  | nil => rfl
  | cons t rest ih =>
    simp only [sepJoinAll, List.count_append, List.length_cons]
    rw [h t (by simp), ih (fun t' ht' => h t' (by simp [ht']))]
    have : ((',' :: [' ']) : List Char).count 'x' = 0 := by decide
    omega

/-- The final wrapped line contains one `'x'` per token. -/
theorem count_x_sepJoinLast (c : List (List Char))
    (h : ∀ t ∈ c, t.count 'x' = 1) :
    (sepJoinLast c).count 'x' = c.length := by
  induction c with
  | nil => rfl
  | cons t rest ih =>
    cases rest with
    | nil =>
      show t.count 'x' = 1
      exact h t (by simp)
    | cons r rs =>
      rw [sepJoinLast_cons t (r :: rs) (by simp)]
      simp only [List.count_append, List.length_cons]
      rw [h t (by simp), ih (fun t' ht' => h t' (by simp [ht']))]
      have : ((',' :: [' ']) : List Char).count 'x' = 0 := by decide
      simp only [List.length_cons] at *
      omega

/-- `splitLines` never returns the empty list. -/
theorem splitLines_ne_nil (l : List Char) : splitLines l ≠ [] := by
  cases l with
  | nil => simp [splitLines]
  | cons c rest =>
    simp only [splitLines]
    by_cases h : c = '\n'
    · simp [h]
    · rw [if_neg h]
      cases hr : splitLines rest <;> simp

/-- Splitting starts a fresh line at a newline. -/
theorem splitLines_cons_nl (l : List Char) :
    splitLines ('\n' :: l) = [] :: splitLines l := by
  simp [splitLines]

/-- Splitting after a leading non-newline character extends the first
line. -/
theorem splitLines_cons_noNL (c : Char) (hc : c ≠ '\n') (l : List Char) :
    splitLines (c :: l) = consHead [c] (splitLines l) := by
  simp only [splitLines, if_neg hc]
  cases h : splitLines l with
  | nil => exact absurd h (splitLines_ne_nil l)
  | cons x xs => simp [consHead]

/-- `consHead` composes by concatenation. -/
theorem consHead_consHead (a b : List Char) (L : List (List Char)) :
    consHead a (consHead b L) = consHead (a ++ b) L := by
  cases L <;> simp [consHead]

/-- Splitting after a newline-free piece extends the first line. -/
theorem splitLines_append_noNL (a b : List Char) (h : '\n' ∉ a) :
    splitLines (a ++ b) = consHead a (splitLines b) := by
  induction a with
  | nil =>
    rw [List.nil_append]
    cases hb : splitLines b with
    | nil => exact absurd hb (splitLines_ne_nil b)
    | cons l ls => simp [consHead]
  | cons c a' ih =>
    have hc : c ≠ '\n' := fun hh => h (by simp [hh])
    have h' : '\n' ∉ a' := fun hh => h (by simp [hh])
    rw [List.cons_append, splitLines_cons_noNL c hc, ih h', consHead_consHead]
    rfl

/-- A newline-free text is a single line. -/
theorem splitLines_noNL (l : List Char) (h : '\n' ∉ l) : splitLines l = [l] := by
  induction l with
  | nil => rfl
  | cons c rest ih =>
    have hc : c ≠ '\n' := fun hh => h (by simp [hh])
    simp only [splitLines, if_neg hc,
      ih (fun hh => h (by simp [hh]))]

/-- Non-final wrapped lines contain no newline when their tokens do not. -/
theorem noNL_sepJoinAll (c : List (List Char)) (h : ∀ t ∈ c, '\n' ∉ t) :
    '\n' ∉ sepJoinAll c := by
  induction c with
  | nil => simp [sepJoinAll]
  | cons t rest ih =>
    intro hmem
    simp only [sepJoinAll] at hmem
    rcases List.mem_append.mp hmem with hm | hm
    · rcases List.mem_append.mp hm with h2 | h2
      · exact h t (by simp) h2
      · simp at h2
    · exact ih (fun t' ht' => h t' (by simp [ht'])) hm

/-- The final wrapped line contains no newline when its tokens do not. -/
theorem noNL_sepJoinLast (c : List (List Char)) (h : ∀ t ∈ c, '\n' ∉ t) :
    '\n' ∉ sepJoinLast c := by
  induction c with
  | nil => simp [sepJoinLast]
  | cons t rest ih =>
    cases rest with
    | nil => exact h t (by simp)
    | cons r rs =>
      rw [sepJoinLast_cons t (r :: rs) (by simp)]
      intro hmem
      rcases List.mem_append.mp hmem with hm | hm
      · rcases List.mem_append.mp hm with h2 | h2
        · exact h t (by simp) h2
        · simp at h2
      · exact ih (fun t' ht' => h t' (by simp [ht'])) hm

/-- The line structure of the chunk rendering: an initial empty segment
(the text starts with a newline) followed by one line per chunk. -/
theorem splitLines_renderChunksAux (contInd : List Char) (hci : '\n' ∉ contInd) :
    ∀ cs : List (List (List Char)), (∀ c ∈ cs, ∀ t ∈ c, '\n' ∉ t) →
      splitLines (renderChunksAux contInd cs) = [] :: specLines contInd cs := by
  intro cs
  induction cs with
  | nil => intro _; rfl
  | cons c cs' ih =>
    intro h
    cases cs' with
    | nil =>
      have hnl : '\n' ∉ contInd ++ sepJoinLast c := by
        intro hmem
        rcases List.mem_append.mp hmem with hm | hm
        · exact hci hm
        · exact noNL_sepJoinLast c (fun t ht => h c (by simp) t ht) hm
      show splitLines ('\n' :: (contInd ++ sepJoinLast c)) = _
      simp only [splitLines, if_pos rfl, splitLines_noNL _ hnl]
      rfl
    | cons c2 cs'' =>
      rw [renderChunksAux_cons contInd c (c2 :: cs'') (by simp)]
      have hnl : '\n' ∉ contInd ++ sepJoinAll c := by
        intro hmem
        rcases List.mem_append.mp hmem with hm | hm
        · exact hci hm
        · exact noNL_sepJoinAll c (fun t ht => h c (by simp) t ht) hm
      have hassoc :
          ('\n' :: contInd ++ sepJoinAll c ++ renderChunksAux contInd (c2 :: cs''))
            = '\n' :: ((contInd ++ sepJoinAll c)
              ++ renderChunksAux contInd (c2 :: cs'')) := by
        simp [List.append_assoc]
      rw [hassoc, splitLines_cons_nl, splitLines_append_noNL _ _ hnl,
        ih (fun c' hc' t ht => h c' (by simp [hc']) t ht)]
      simp [consHead, specLines]

/-- Explicit shape of `specLines`: one mapped line per non-final chunk plus
the final chunk's line. -/
theorem specLines_structure (contInd : List Char) :
    ∀ cs : List (List (List Char)), cs ≠ [] →
      ∃ last, cs.getLast? = some last ∧
        specLines contInd cs =
          cs.dropLast.map (fun c => contInd ++ sepJoinAll c)
            ++ [contInd ++ sepJoinLast last] := by
  intro cs
  induction cs with
  | nil => intro h; exact absurd rfl h
  | cons c cs' ih =>
    intro _
    cases cs' with
    | nil => exact ⟨c, rfl, by simp [specLines]⟩
    | cons c2 cs'' =>
      obtain ⟨last, h1, h2⟩ := ih (by simp)
      refine ⟨last, ?_, ?_⟩
      · rw [List.getLast?_cons_cons]
        exact h1
      · have hd : (c :: c2 :: cs'').dropLast = c :: (c2 :: cs'').dropLast :=
          List.dropLast_cons_of_ne_nil (by simp)
        rw [show specLines contInd (c :: c2 :: cs'') =
            (contInd ++ sepJoinAll c) :: specLines contInd (c2 :: cs'') from rfl,
          h2, hd]
        simp

/-- With underflow-free `unsigned` arithmetic, `valuesPerLine` is the
claimed floor formula. -/
theorem valuesPerLine_formula (w i li : Nat) (hw : w < U32) (hle : i + li ≤ w)
    (hwrap : w - i - li + 1 < U32) :
    valuesPerLine w i li = (w - i - li + 1) / 6 := by
  have h : (wsub (wsub w i) li + 1) % U32 = w - i - li + 1 := by
    simp only [wsub, U32] at *
    omega
  rw [valuesPerLine, h]

/-- Emitted hex tokens contain no newline. -/
theorem noNL_hexByte (v : Nat) : '\n' ∉ hexByte v := by
  have h1 := hexDigitU_ne (v % 256 / 16) (by omega)
  have h2 := hexDigitU_ne (v % 16) (by omega)
  intro hmem
  simp only [hexByte, List.mem_cons, List.not_mem_nil, or_false] at hmem
  rcases hmem with h | h | h | h
  · exact absurd h (by decide)
  · exact absurd h (by decide)
  · exact h1.2.2.1 h.symm
  · exact h2.2.2.1 h.symm

/-- The indentation string contains no newline. -/
theorem noNL_spaces (m : Nat) : '\n' ∉ spaces m := by
  intro hmem
  have := List.eq_of_mem_replicate hmem
  simp at this

/-- `rfind` misses only when the character is absent. -/
theorem rfindChar_none (t : Char) :
    ∀ s : List Char, rfindChar s t = none → t ∉ s := by
  intro s
  induction s with
  | nil => intro _; simp
  | cons c rest ih =>
    intro h hmem
    simp only [rfindChar] at h
    cases hr : rfindChar rest t with
    | some j => rw [hr] at h; simp at h
    | none =>
      rw [hr] at h
      by_cases hc : c = t
      · simp [hc] at h
      · rcases List.mem_cons.mp hmem with h1 | h1
        · exact hc h1.symm
        · exact ih hr h1

/-- `rfind` returns the position of the last occurrence: the string splits
there and the suffix is occurrence-free. -/
theorem rfindChar_some (t : Char) :
    ∀ (s : List Char) (i : Nat), rfindChar s t = some i →
      ∃ p q, s = p ++ t :: q ∧ p.length = i ∧ t ∉ q := by
  intro s
  induction s with
  | nil => intro i h; simp [rfindChar] at h
  | cons c rest ih =>
    intro i h
    simp only [rfindChar] at h
    cases hr : rfindChar rest t with
    | some j =>
      rw [hr] at h
      have hi : i = j + 1 := by
        have := Option.some.inj h
        omega
      subst hi
      obtain ⟨p, q, hs, hp, hq⟩ := ih j hr
      exact ⟨c :: p, q, by simp [hs], by simp [hp], hq⟩
    | none =>
      rw [hr] at h
      by_cases hc : c = t
      · rw [if_pos hc] at h
        have hi : i = 0 := by
          have := Option.some.inj h
          omega
        subst hi
        exact ⟨[], rest, by simp [hc], rfl, rfindChar_none t rest hr⟩
      · rw [if_neg hc] at h
        simp at h

/-- `takeWhile` passes over an all-true segment. -/
theorem takeWhile_append_all (p : Char → Bool) :
    ∀ (a b : List Char), (∀ c ∈ a, p c = true) →
      (a ++ b).takeWhile p = a ++ b.takeWhile p := by
  intro a b
  induction a with
  | nil => intro _; rfl
  | cons c a' ih =>
    intro h
    simp only [List.cons_append, List.takeWhile_cons, h c (by simp),
      if_true, List.cons.injEq, true_and]
    exact ih (fun c' hc' => h c' (by simp [hc']))

/-- Dropping past an explicit split point leaves the suffix. -/
theorem drop_split (p : List Char) (x : Char) (q : List Char) :
    (p ++ x :: q).drop (p.length + 1) = q := by
  rw [← List.drop_drop, List.drop_left]
  rfl

/-- The separator-free suffix after an explicit last-separator split. -/
theorem afterLastSep_split (p : List Char) (x : Char) (q : List Char)
    (hx : x = '/' ∨ x = '\\') (hq1 : '/' ∉ q) (hq2 : '\\' ∉ q) :
    afterLastSep (p ++ x :: q) = q := by
  have hall : ∀ c ∈ q.reverse, notSep c = true := by
    intro c hc
    have hcm := List.mem_reverse.mp hc
    have d1 : c ≠ '/' := fun e => hq1 (e ▸ hcm)
    have d2 : c ≠ '\\' := fun e => hq2 (e ▸ hcm)
    simp [notSep, d1, d2]
  have hxf : notSep x = false := by
    rcases hx with h | h <;> simp [notSep, h]
  unfold afterLastSep
  rw [List.reverse_append, List.reverse_cons, List.append_assoc,
    takeWhile_append_all notSep q.reverse _ hall]
  simp only [List.singleton_append, List.takeWhile_cons, hxf]
  simp

/-- Without separators, the suffix is the whole string. -/
theorem afterLastSep_nosep (s : List Char) (h1 : '/' ∉ s) (h2 : '\\' ∉ s) :
    afterLastSep s = s := by
  have hall : ∀ c ∈ s.reverse, notSep c = true := by
    intro c hc
    have hcm := List.mem_reverse.mp hc
    have d1 : c ≠ '/' := fun e => h1 (e ▸ hcm)
    have d2 : c ≠ '\\' := fun e => h2 (e ▸ hcm)
    simp [notSep, d1, d2]
  have ht : s.reverse.takeWhile notSep = s.reverse := by
    have := takeWhile_append_all notSep s.reverse [] hall
    simpa using this
  unfold afterLastSep
  rw [ht, List.reverse_reverse]

/-- The source's nested `rfind`/`substr` logic computes exactly the
spec-side "everything after the last separator" fragment, dots replaced. -/
theorem pfxFromPath_eq_afterLastSep (s : List Char) :
    pfxFromPath s = (afterLastSep s).map dotToUnderscore := by
  unfold pfxFromPath
  cases hf : rfindChar s '/' with
  | none =>
    cases hb : rfindChar s '\\' with
    | none =>
      have h1 := rfindChar_none '/' s hf
      have h2 := rfindChar_none '\\' s hb
      dsimp only
      rw [afterLastSep_nosep s h1 h2]
    | some bp =>
      obtain ⟨p, q, hs, hplen, hq⟩ := rfindChar_some '\\' s bp hb
      have h1 := rfindChar_none '/' s hf
      have hq1 : '/' ∉ q := fun hmem => h1 (by rw [hs]; simp [hmem])
      subst hs
      dsimp only
      rw [afterLastSep_split p '\\' q (Or.inr rfl) hq1 hq, ← hplen,
        drop_split p '\\' q]
  | some fp =>
    cases hb : rfindChar s '\\' with
    | none =>
      obtain ⟨p, q, hs, hplen, hq⟩ := rfindChar_some '/' s fp hf
      have h2 := rfindChar_none '\\' s hb
      have hq2 : '\\' ∉ q := fun hmem => h2 (by rw [hs]; simp [hmem])
      subst hs
      dsimp only
      rw [afterLastSep_split p '/' q (Or.inl rfl) hq hq2, ← hplen,
        drop_split p '/' q]
    | some bp =>
      obtain ⟨pf, qf, hsf, hplenf, hqf⟩ := rfindChar_some '/' s fp hf
      obtain ⟨pb, qb, hsb, hplenb, hqb⟩ := rfindChar_some '\\' s bp hb
      have hqf_drop : s.drop (fp + 1) = qf := by
        rw [hsf, ← hplenf, drop_split pf '/' qf]
      have hqb_drop : s.drop (bp + 1) = qb := by
        rw [hsb, ← hplenb, drop_split pb '\\' qb]
      dsimp only
      rcases Nat.le_total fp bp with hle | hle
      · have hmax : max fp bp = bp := Nat.max_eq_right hle
        have hq1 : '/' ∉ qb := by
          intro hmem
          have hsub : s.drop (bp + 1) = (s.drop (fp + 1)).drop (bp - fp) := by
            rw [List.drop_drop]
            congr 1
            omega
          have : '/' ∈ s.drop (fp + 1) := by
            apply List.drop_subset (bp - fp)
            rw [← hsub, hqb_drop]
            exact hmem
          rw [hqf_drop] at this
          exact hqf this
        rw [hmax, hqb_drop, hsb,
          afterLastSep_split pb '\\' qb (Or.inr rfl) hq1 hqb]
      · have hmax : max fp bp = fp := Nat.max_eq_left hle
        have hq2 : '\\' ∉ qf := by
          intro hmem
          have hsub : s.drop (fp + 1) = (s.drop (bp + 1)).drop (fp - bp) := by
            rw [List.drop_drop]
            congr 1
            omega
          have : '\\' ∈ s.drop (bp + 1) := by
            apply List.drop_subset (fp - bp)
            rw [← hsub, hqf_drop]
            exact hmem
          rw [hqb_drop] at this
          exact hqb this
        rw [hmax, hqf_drop, hsf,
          afterLastSep_split pf '/' qf (Or.inl rfl) hqf hq2]

/-- Newline-freeness is preserved by concatenation. -/
theorem noNL_append (a b : List Char) (ha : '\n' ∉ a) (hb : '\n' ∉ b) :
    '\n' ∉ a ++ b := by
  intro h
  rcases List.mem_append.mp h with h | h
  exacts [ha h, hb h]

/-- Decimal renderings contain no newline. -/
theorem noNL_natReprAux : ∀ fuel n, '\n' ∉ natReprAux fuel n := by
  intro fuel
  induction fuel with
  | zero => intro n; simp [natReprAux]
  | succ fuel ih =>
    intro n
    have hd : ∀ m, m < 10 → digitChar m ≠ '\n' := by decide
    simp only [natReprAux]
    by_cases hn : n < 10
    · rw [if_pos hn]
      intro hmem
      simp only [List.mem_singleton] at hmem
      exact hd n hn hmem.symm
    · rw [if_neg hn]
      intro hmem
      rcases List.mem_append.mp hmem with h | h
      · exact ih (n / 10) h
      · simp only [List.mem_singleton] at h
        exact hd (n % 10) (by omega) h.symm

/-- Decimal renderings contain no newline. -/
theorem noNL_natRepr (n : Nat) : '\n' ∉ natRepr n := noNL_natReprAux (n + 1) n

/-- Taking the margin of a line that starts with it yields the margin. -/
theorem take_spaces (li : Nat) (r : List Char) :
    (spaces li ++ r).take li = spaces li := by
  rw [List.take_append_of_le_length (by simp [spaces]), spaces,
    List.take_replicate]
  simp

/-- Line structure of the dump loop followed by a newline and a
continuation: one first segment (empty when the loop opens with a line
break, as the top-level call does), then lines that either carry the
content indentation or belong to the continuation. -/
theorem splitLines_dump_lines (contInd : List Char) (vpl : Nat)
    (hci : '\n' ∉ contInd) :
    ∀ (bytes : List Nat) (s : Nat) (t' : List Char),
      ∃ first rest,
        splitLines (dumpBytesLoop contInd vpl bytes s ++ '\n' :: t') =
          first :: rest ∧
        (∀ l ∈ rest, (∃ r, l = contInd ++ r) ∨ l ∈ splitLines t') ∧
        ((vpl ≤ s ∨ bytes = []) → first = []) := by
  intro bytes
  induction bytes with
  | nil =>
    intro s t'
    refine ⟨[], splitLines t', ?_, fun l hl => Or.inr hl, fun _ => rfl⟩
    simp [dumpBytesLoop, splitLines_cons_nl]
  | cons v rest0 ih =>
    intro s t'
    have hsep : '\n' ∉ (if rest0 = [] then ([] : List Char) else [',', ' ']) := by
      split <;> simp
    by_cases hs : vpl ≤ s
    · obtain ⟨f1, r1, hsplit, hmem, _⟩ := ih 1 t'
      refine ⟨[], (contInd ++ (hexByte v
          ++ ((if rest0 = [] then [] else [',', ' ']) ++ f1))) :: r1,
        ?_, ?_, fun _ => rfl⟩
      · have hre : dumpBytesLoop contInd vpl (v :: rest0) s ++ '\n' :: t' =
            '\n' :: (contInd ++ (hexByte v
              ++ ((if rest0 = [] then [] else [',', ' '])
                ++ (dumpBytesLoop contInd vpl rest0 1 ++ '\n' :: t')))) := by
          simp [dumpBytesLoop, if_pos hs, List.append_assoc]
        rw [hre, splitLines_cons_nl, splitLines_append_noNL contInd _ hci,
          splitLines_append_noNL (hexByte v) _ (noNL_hexByte v),
          splitLines_append_noNL _ _ hsep, hsplit]
        simp [consHead, List.append_assoc]
      · intro l hl
        rcases List.mem_cons.mp hl with h | h
        · exact Or.inl ⟨_, h⟩
        · exact hmem l h
    · obtain ⟨f1, r1, hsplit, hmem, _⟩ := ih (s + 1) t'
      refine ⟨hexByte v ++ ((if rest0 = [] then [] else [',', ' ']) ++ f1), r1,
        ?_, hmem, ?_⟩
      · have hre : dumpBytesLoop contInd vpl (v :: rest0) s ++ '\n' :: t' =
            hexByte v ++ ((if rest0 = [] then [] else [',', ' '])
              ++ (dumpBytesLoop contInd vpl rest0 (s + 1) ++ '\n' :: t')) := by
          simp [dumpBytesLoop, if_neg hs, List.append_assoc]
        rw [hre, splitLines_append_noNL (hexByte v) _ (noNL_hexByte v),
          splitLines_append_noNL _ _ hsep, hsplit]
        simp [consHead, List.append_assoc]
      · rintro (h | h)
        · exact absurd h hs
        · exact absurd h (by simp)

set_option maxRecDepth 4096 in
/-- Every nonempty line of a rendered declaration block begins with the
configured left margin (content lines carry the wider content margin, which
extends it). -/
theorem renderDump_line_margin (cfg : DumpConfig) (bytes : List Nat)
    (hvt : '\n' ∉ cfg.variableType) (hpfx : '\n' ∉ cfg.pfx)
    (hvn : '\n' ∉ cfg.variableName) (hsvt : '\n' ∉ cfg.sizeVariableType)
    (hsvn : '\n' ∉ cfg.sizeVariableName) :
    ∀ l ∈ splitLines (renderDump cfg bytes), l ≠ [] →
      l.take cfg.leftIndentation = spaces cfg.leftIndentation := by
  intro l hl hlne
  have hnum := noNL_natRepr bytes.length
  have hH : '\n' ∉ spaces cfg.leftIndentation ++ (cfg.variableType
      ++ ([' '] ++ (cfg.pfx ++ (cfg.variableName ++ (['[']
        ++ (natRepr bytes.length ++ (']' :: ' ' :: '=' :: ' ' :: ['\x7b']))))))) :=
    noNL_append _ _ (noNL_spaces _) (noNL_append _ _ hvt (noNL_append _ _
      (by decide) (noNL_append _ _ hpfx (noNL_append _ _ hvn (noNL_append _ _
        (by decide) (noNL_append _ _ hnum (by decide)))))))
  have hA1 : '\n' ∉ spaces cfg.leftIndentation ++ ('\x7d' :: [';']) :=
    noNL_append _ _ (noNL_spaces _) (by decide)
  have hS : '\n' ∉ spaces cfg.leftIndentation ++ (cfg.sizeVariableType
      ++ ([' '] ++ (cfg.pfx ++ (cfg.sizeVariableName
        ++ ((' ' :: '=' :: [' ']) ++ (natRepr bytes.length ++ [';'])))))) :=
    noNL_append _ _ (noNL_spaces _) (noNL_append _ _ hsvt (noNL_append _ _
      (by decide) (noNL_append _ _ hpfx (noNL_append _ _ hsvn (noNL_append _ _
        (by decide) (noNL_append _ _ hnum (by decide)))))))
  have hre : renderDump cfg bytes =
      (spaces cfg.leftIndentation ++ (cfg.variableType ++ ([' ']
        ++ (cfg.pfx ++ (cfg.variableName ++ (['[']
          ++ (natRepr bytes.length ++ (']' :: ' ' :: '=' :: ' ' :: ['\x7b']))))))))
      ++ (dumpBytesLoop (spaces (cfg.leftIndentation + cfg.indentation))
            (valuesPerLine cfg.width cfg.indentation cfg.leftIndentation) bytes
            (valuesPerLine cfg.width cfg.indentation cfg.leftIndentation)
        ++ '\n' :: ((spaces cfg.leftIndentation ++ ('\x7d' :: [';']))
          ++ '\n' :: ('\n' :: ((spaces cfg.leftIndentation
            ++ (cfg.sizeVariableType ++ ([' '] ++ (cfg.pfx
              ++ (cfg.sizeVariableName ++ ((' ' :: '=' :: [' '])
                ++ (natRepr bytes.length ++ [';'])))))))
            ++ '\n' :: ('\n' :: []))))) := by
    simp [renderDump, List.append_assoc]
  obtain ⟨f, rest, hdl, hmem, hfirst⟩ :=
    splitLines_dump_lines (spaces (cfg.leftIndentation + cfg.indentation))
      (valuesPerLine cfg.width cfg.indentation cfg.leftIndentation)
      (noNL_spaces _) bytes
      (valuesPerLine cfg.width cfg.indentation cfg.leftIndentation)
      ((spaces cfg.leftIndentation ++ ('\x7d' :: [';']))
        ++ '\n' :: ('\n' :: ((spaces cfg.leftIndentation
          ++ (cfg.sizeVariableType ++ ([' '] ++ (cfg.pfx
            ++ (cfg.sizeVariableName ++ ((' ' :: '=' :: [' '])
              ++ (natRepr bytes.length ++ [';'])))))))
          ++ '\n' :: ('\n' :: []))))
  rw [hfirst (Or.inl le_rfl)] at hdl
  rw [hre, splitLines_append_noNL _ _ hH, hdl] at hl
  simp only [consHead, List.append_nil] at hl
  have ht' : splitLines ((spaces cfg.leftIndentation ++ ('\x7d' :: [';']))
      ++ '\n' :: ('\n' :: ((spaces cfg.leftIndentation
        ++ (cfg.sizeVariableType ++ ([' '] ++ (cfg.pfx
          ++ (cfg.sizeVariableName ++ ((' ' :: '=' :: [' '])
            ++ (natRepr bytes.length ++ [';'])))))))
        ++ '\n' :: ('\n' :: [])))) =
      [spaces cfg.leftIndentation ++ ('\x7d' :: [';']), [],
        spaces cfg.leftIndentation ++ (cfg.sizeVariableType ++ ([' ']
          ++ (cfg.pfx ++ (cfg.sizeVariableName ++ ((' ' :: '=' :: [' '])
            ++ (natRepr bytes.length ++ [';'])))))), [], []] := by
    rw [splitLines_append_noNL _ _ hA1, splitLines_cons_nl, splitLines_cons_nl,
      splitLines_append_noNL _ _ hS, splitLines_cons_nl, splitLines_cons_nl]
    simp [consHead, splitLines]
  rcases List.mem_cons.mp hl with h | h
  · subst h
    exact take_spaces _ _
  · rcases hmem l h with ⟨r, hr⟩ | hmem2
    · subst hr
      rw [show spaces (cfg.leftIndentation + cfg.indentation)
          = spaces cfg.leftIndentation ++ spaces cfg.indentation from by
            simp only [spaces, List.replicate_add], List.append_assoc]
      exact take_spaces _ _
    · rw [ht'] at hmem2
      simp only [List.mem_cons, List.not_mem_nil, or_false] at hmem2
      rcases hmem2 with h2 | h2 | h2 | h2 | h2
      · subst h2; exact take_spaces _ _
      · exact absurd h2 hlne
      · subst h2; exact take_spaces _ _
      · exact absurd h2 hlne
      · exact absurd h2 hlne

/-- If the multi-input loop reports failure, some listed input failed to
open. -/
theorem multiLoop_fail_means_open_failure (deflate : List Nat → List Nat)
    (openF : List Char → Option (List Nat)) (junk : List Char → Nat)
    (mkCfg : List Char → DumpConfig) (first : List Char) :
    ∀ fns : List (List Char),
      (multiLoop deflate openF junk mkCfg first fns).2.2 = false →
      ∃ fn ∈ fns, openF fn = none := by
  intro fns
  induction fns with
  | nil => intro h; simp [multiLoop] at h
  | cons fn rest ih =>
    intro h
    cases hopen : openF fn with
    | none => exact ⟨fn, by simp, hopen⟩
    | some bytes =>
      simp only [multiLoop, hopen] at h
      obtain ⟨g, hg, hgn⟩ := ih h
      exact ⟨g, by simp [hg], hgn⟩

end BuildPayload

/-- C1: for input bytes `[0xDE, 0xAD, 0xBE, 0xEF]` with compression
disabled, width 120 and indentation 4, the code does *not* produce the
claimed single content line `0xDE, 0xAD, 0xBE, 0xEF` with size constant 4:
the read loop pushes one extra indeterminate byte after the final failed
read, so the array has five entries (the four input bytes plus the junk
byte, here `0xAB`) and the size constant is 5. -/
theorem c1_extra_trailing_byte :
    (∀ (stream : List Nat) (junk : Nat),
      BuildPayload.readLoop stream junk = stream ++ [junk]) ∧
    (BuildPayload.parseAndDumpInput (fun b => b) [0xDE, 0xAD, 0xBE, 0xEF] 0xAB
        BuildPayload.cfgDefault).1 =
      ("static const unsigned char declarations[5] = \x7b\n    0xDE, 0xAD, 0xBE, 0xEF, 0xAB\n\x7d;\n\nstatic const unsigned long declarationsSize = 5;\n\n").toList ∧
    (BuildPayload.parseAndDumpInput (fun b => b) [0xDE, 0xAD, 0xBE, 0xEF] 0xAB
        BuildPayload.cfgDefault).2 = true :=
  ⟨BuildPayload.readLoop_eq, by decide, rfl⟩

/-- C8: for an empty input stream the pipeline does *not* emit a size-0
array: the failed first read still pushes one indeterminate byte (here
`0xAB`), so the emitted array has one entry and the size constant is 1.  The
formatter itself does handle `numberBytes = 0` gracefully (second conjunct):
fed an empty byte sequence it emits a syntactically valid empty body and a
size constant of 0. -/
theorem c8_empty_input_not_size_zero :
    (BuildPayload.parseAndDumpInput (fun b => b) [] 0xAB
        BuildPayload.cfgDefault).1 =
      ("static const unsigned char declarations[1] = \x7b\n    0xAB\n\x7d;\n\nstatic const unsigned long declarationsSize = 1;\n\n").toList ∧
    BuildPayload.renderDump BuildPayload.cfgDefault [] =
      ("static const unsigned char declarations[0] = \x7b\n\x7d;\n\nstatic const unsigned long declarationsSize = 0;\n\n").toList :=
  ⟨by decide, by decide⟩

/-- C3: the compression stage returns its input unchanged when compression
is disabled; when enabled it produces the 4-byte big-endian length of the
input followed by the deflate stream (for every byte sequence, including the
empty one), and the 4-byte header decodes back to the uncompressed length
whenever that length fits in 32 bits. -/
theorem c3_compressor_contract (deflate : List Nat → List Nat)
    (bytes : List Nat) :
    BuildPayload.compressStage deflate bytes false = bytes ∧
    BuildPayload.compressStage deflate bytes true =
      BuildPayload.be32 bytes.length ++ deflate bytes ∧
    (BuildPayload.be32 bytes.length).length = 4 ∧
    (bytes.length < BuildPayload.U32 →
      BuildPayload.decodeBe32 (BuildPayload.be32 bytes.length) = bytes.length) :=
  ⟨rfl, rfl, rfl, fun h => by
    rw [BuildPayload.decodeBe32_be32]
    exact Nat.mod_eq_of_lt h⟩

/-- Witness for C3 at the concrete input `[0xDE, 0xAD, 0xBE, 0xEF]`. -/
theorem c3_compressor_contract_witness :
    BuildPayload.decodeBe32 (BuildPayload.be32 ([0xDE, 0xAD, 0xBE, 0xEF] : List Nat).length) =
      ([0xDE, 0xAD, 0xBE, 0xEF] : List Nat).length :=
  (c3_compressor_contract (fun b => b) [0xDE, 0xAD, 0xBE, 0xEF]).2.2.2 (by decide)

/-- C4: for every byte sequence `B` (including `[]`) and every
deflate/inflate pair satisfying the zlib round-trip contract, decompressing
the length-prefixed compressed block produced for `B` yields `B` again. -/
theorem c4_decompress_compress_roundtrip
    (inflate : List Nat → Option (List Nat)) (deflate : List Nat → List Nat)
    (h : ∀ b, inflate (deflate b) = some b) (B : List Nat) :
    BuildPayload.qUncompressModel inflate (BuildPayload.qCompressModel deflate B) =
      some B := by
  have hd : BuildPayload.decodeBe32 (BuildPayload.be32 B.length) = B.length % BuildPayload.U32 :=
    BuildPayload.decodeBe32_be32 B.length
  simp only [BuildPayload.qCompressModel, BuildPayload.be32, List.cons_append,
    List.nil_append, BuildPayload.qUncompressModel, h]
  rw [show [B.length / 16777216 % 256, B.length / 65536 % 256,
      B.length / 256 % 256, B.length % 256] = BuildPayload.be32 B.length from rfl, hd,
    if_pos rfl]

/-- Witness for C4: concrete round trip with the identity deflate/inflate
pair on `[0xDE, 0xAD, 0xBE, 0xEF]`. -/
theorem c4_decompress_compress_roundtrip_witness :
    BuildPayload.qUncompressModel (fun b => some b)
      (BuildPayload.qCompressModel (fun b => b) [0xDE, 0xAD, 0xBE, 0xEF]) =
      some [0xDE, 0xAD, 0xBE, 0xEF] :=
  c4_decompress_compress_roundtrip (fun b => some b) (fun b => b)
    (fun _ => rfl) [0xDE, 0xAD, 0xBE, 0xEF]

/-- C7: in the multi-input run `a.bin missing.bin c.bin` where opening
`missing.bin` fails, processing stops immediately (the openable `c.bin`
contributes nothing), the block already produced for `a.bin` remains in the
output, and the run reports failure — but the emitted diagnostic names
`inputs.at(0)` (`a.bin`, src/build_payload.cpp:319), *not* the specific
failing path `missing.bin`, refuting the claimed diagnostic. -/
theorem c7_first_failure_diagnostic_names_first_input :
    BuildPayload.demoRunMulti.2.2 = false ∧
    BuildPayload.demoRunMulti.1 =
      ("// Contents of a.bin:\nstatic const unsigned char a_bindeclarations[2] = \x7b\n    0x01, 0x00\n\x7d;\n\nstatic const unsigned long a_bindeclarationsSize = 2;\n\n").toList ∧
    BuildPayload.demoOpen "c.bin".toList = some [1] ∧
    BuildPayload.demoRunMulti.2.1 = BuildPayload.openErrText "a.bin".toList ∧
    BuildPayload.demoRunMulti.2.1 ≠ BuildPayload.openErrText "missing.bin".toList :=
  ⟨rfl, by decide, by decide, by decide, by decide⟩

/-- C5 counterexample: for the layout width = 5, indentation = 1,
leftIndentation = 0 (valid per the spec invariant `maxWidth > indentation +
leftIndentation`), the code computes `valuesPerLine = 0`, yet for the
two-byte input `[0x00, 0x00]` every wrapped line carries one token — so the
non-final first wrapped line carries `1 ≠ valuesPerLine` tokens, refuting
the claim as stated. -/
theorem c5_counterexample :
    BuildPayload.valuesPerLine 5 1 0 = 0 ∧
    BuildPayload.splitLines
        (BuildPayload.dumpBytesLoop (BuildPayload.spaces 1)
          (BuildPayload.valuesPerLine 5 1 0) [0, 0]
          (BuildPayload.valuesPerLine 5 1 0)) =
      [[], " 0x00, ".toList, " 0x00".toList] ∧
    List.count 'x' (" 0x00, ".toList) = 1 ∧
    List.count 'x' (" 0x00, ".toList) ≠ BuildPayload.valuesPerLine 5 1 0 :=
  ⟨rfl, by decide, by decide, by decide⟩

/-- C9 counterexample: in the namespaced two-input run, the opening scope
line does come first, but the per-file comment line `// Contents of a.bin:`
(src/build_payload.cpp:300) is emitted after it with *no* left margin — its
first four characters are not the four-space indentation — refuting "
indentation is added to the left margin of every line of output emitted
after the opening scope line". -/
theorem c9_counterexample :
    (BuildPayload.splitLines BuildPayload.demoRunNs.1).getD 0 [] =
      "namespace N\x7b".toList ∧
    (BuildPayload.splitLines BuildPayload.demoRunNs.1).getD 1 [] =
      "// Contents of a.bin:".toList ∧
    ((BuildPayload.splitLines BuildPayload.demoRunNs.1).getD 1 []).take 4 ≠
      BuildPayload.spaces 4 :=
  ⟨by decide, by decide, by decide⟩

/-- C10: `parseAndDumpInput` returns `true` for every stream and every
configuration — the compression-and-formatting stage has no failure path —
and whenever `buildPayloadHelper` reports failure, some configured input
file failed to open. -/
theorem c10_no_formatting_failure
    (deflate : List Nat → List Nat) (stream : List Nat) (junkByte : Nat)
    (cfg : BuildPayload.DumpConfig)
    (openF : List Char → Option (List Nat))
    (stdinStream : List Nat) (junk : List Char → Nat) (stdinJunk : Nat)
    (inputs : List (List Char)) (description copyrightMessage : List Char)
    (noCopyrightMessage : Bool) (indentation width : Nat)
    (namespaceName variableName variableType : List Char)
    (sizeVariableName sizeVariableType : List Char) (zlibCompress : Bool) :
    (BuildPayload.parseAndDumpInput deflate stream junkByte cfg).2 = true ∧
    ((BuildPayload.buildPayloadHelper deflate openF stdinStream junk stdinJunk
        inputs description copyrightMessage noCopyrightMessage indentation
        width namespaceName variableName variableType sizeVariableName
        sizeVariableType zlibCompress).2.2 = false →
      ∃ fn ∈ inputs, openF fn = none) := by
  refine ⟨rfl, ?_⟩
  intro h
  match inputs with
  | [] =>
    simp [BuildPayload.buildPayloadHelper, BuildPayload.parseAndDumpInput] at h
  | [fn] =>
    cases hopen : openF fn with
    | none => exact ⟨fn, by simp, hopen⟩
    | some bytes =>
      simp [BuildPayload.buildPayloadHelper, hopen,
        BuildPayload.parseAndDumpInput] at h
  | fn :: f2 :: rest =>
    simp only [BuildPayload.buildPayloadHelper] at h
    exact BuildPayload.multiLoop_fail_means_open_failure _ _ _ _ _ _ h

/-- Witness for C10: a concrete failing run, whose failure the theorem
traces to a file-open failure. -/
theorem c10_no_formatting_failure_witness :
    ∃ fn ∈ [("missing.bin".toList)], BuildPayload.demoOpen fn = none :=
  (c10_no_formatting_failure (fun b => b) [] 0 BuildPayload.cfgDefault
    BuildPayload.demoOpen [] (fun _ => 0) 0 [("missing.bin".toList)] [] [] true
    4 120 [] "declarations".toList "static const unsigned char".toList
    "declarationsSize".toList "static const unsigned long".toList false).2
    (by decide)

/-- C2: for every byte sequence and every layout, the tokens the Array
Formatter's dump loop emits are exactly the hex encodings of the bytes, in
order, under the wrapping discipline (first conjunct: the output *is* the
reference interleaving of `bytes.map hexByte`); the output carries exactly
`len(bytes)` tokens (one `'x'` each, and none from elsewhere) and exactly
`len(bytes) - 1` `", "` separators; and each token is the exact two-digit
uppercase hexadecimal encoding of its byte (it decodes back to it). -/
theorem c2_hex_token_stream (bytes : List Nat) (m vpl s : Nat) :
    BuildPayload.dumpBytesLoop (BuildPayload.spaces m) vpl bytes s =
      BuildPayload.renderTokens (BuildPayload.spaces m) vpl
        (bytes.map BuildPayload.hexByte) s ∧
    (BuildPayload.dumpBytesLoop (BuildPayload.spaces m) vpl bytes s).count 'x' =
      bytes.length ∧
    (BuildPayload.dumpBytesLoop (BuildPayload.spaces m) vpl bytes s).count ',' =
      bytes.length - 1 ∧
    ∀ v < 256, BuildPayload.decodeTok (BuildPayload.hexByte v) = some v :=
  ⟨BuildPayload.dumpBytesLoop_eq_renderTokens _ vpl bytes s,
    BuildPayload.dumpBytesLoop_count_x _ vpl
      (by simp [BuildPayload.spaces, List.count_replicate]) bytes s,
    BuildPayload.dumpBytesLoop_count_comma _ vpl
      (by simp [BuildPayload.spaces, List.count_replicate]) bytes s,
    BuildPayload.decodeTok_hexByte⟩

/-- Witness for C2 at byte `0xDE`. -/
theorem c2_hex_token_stream_witness :
    BuildPayload.decodeTok (BuildPayload.hexByte 0xDE) = some 0xDE :=
  (c2_hex_token_stream [0xDE] 4 19 19).2.2.2 0xDE (by decide)

namespace BuildPayload

/-- C5 (amended): for every layout with `indentation + leftIndentation ≤
width < 2^32` and `width - indentation - leftIndentation + 1 ≥ 6`
(equivalently `valuesPerLine ≥ 1`; the claim as stated fails when
`valuesPerLine = 0`, where the code emits one token per line), the Array
Formatter computes `valuesPerLine = floor((width - indentation -
leftIndentation + 1) / 6)` once and keeps it constant; the output's line
structure is exactly one line per group of `valuesPerLine` tokens; every
wrapped line except the final one carries exactly `valuesPerLine` tokens;
and the final line carries `len(B) mod valuesPerLine` tokens (or
`valuesPerLine` if that remainder is 0 and `B` is non-empty). -/
theorem c5_wrapping_amended (bytes : List Nat) (m w i li : Nat)
    (hw : w < U32) (hle : i + li ≤ w) (hwrap : w - i - li + 1 < U32)
    (hfit : 6 ≤ w - i - li + 1) :
    valuesPerLine w i li = (w - i - li + 1) / 6 ∧
    splitLines (dumpBytesLoop (spaces m) (valuesPerLine w i li) bytes
        (valuesPerLine w i li)) =
      [] :: specLines (spaces m) (chunksOf (valuesPerLine w i li)
        (bytes.map hexByte)) ∧
    (∀ l ∈ (specLines (spaces m) (chunksOf (valuesPerLine w i li)
        (bytes.map hexByte))).dropLast,
      l.count 'x' = valuesPerLine w i li) ∧
    (bytes ≠ [] →
      ∃ lastLine, (specLines (spaces m) (chunksOf (valuesPerLine w i li)
          (bytes.map hexByte))).getLast? = some lastLine ∧
        lastLine.count 'x' =
          if bytes.length % valuesPerLine w i li = 0
          then valuesPerLine w i li
          else bytes.length % valuesPerLine w i li) := by
  have hvpl := valuesPerLine_formula w i li hw hle hwrap
  have hvge : 1 ≤ valuesPerLine w i li := by
    rw [hvpl]
    exact (Nat.one_le_div_iff (by norm_num)).mpr hfit
  obtain ⟨k, hk⟩ : ∃ k, valuesPerLine w i li = k + 1 :=
    ⟨valuesPerLine w i li - 1, by omega⟩
  have hkpos : 1 ≤ k + 1 := by omega
  have htokNL : ∀ c ∈ chunksOf (k + 1) (bytes.map hexByte), ∀ t ∈ c,
      '\n' ∉ t := by
    intro c hc t ht
    have hmem : t ∈ bytes.map hexByte :=
      chunksOf_mem_mem (k + 1) hkpos (bytes.map hexByte).length _ le_rfl c hc t ht
    obtain ⟨v, _, rfl⟩ := List.mem_map.mp hmem
    exact noNL_hexByte v
  have htokX : ∀ c ∈ chunksOf (k + 1) (bytes.map hexByte), ∀ t ∈ c,
      t.count 'x' = 1 := by
    intro c hc t ht
    have hmem : t ∈ bytes.map hexByte :=
      chunksOf_mem_mem (k + 1) hkpos (bytes.map hexByte).length _ le_rfl c hc t ht
    obtain ⟨v, _, rfl⟩ := List.mem_map.mp hmem
    exact count_x_hexByte v
  refine ⟨hvpl, ?_, ?_, ?_⟩
  · rw [hk, dumpBytesLoop_eq_renderTokens, renderTokens_top_eq_chunks,
      splitLines_renderChunksAux (spaces m) (noNL_spaces m) _ htokNL]
  · intro l hl
    rw [hk] at hl ⊢
    by_cases hb : bytes = []
    · subst hb
      simp [chunksOf, chunksOfAux, specLines] at hl
    · have hbne : bytes.map hexByte ≠ [] := by simpa using hb
      obtain ⟨lastc, hlast, hstruct⟩ :=
        specLines_structure (spaces m) (chunksOf (k + 1) (bytes.map hexByte))
          (chunksOf_ne_nil (k + 1) hkpos _ hbne)
      rw [hstruct, List.dropLast_concat] at hl
      obtain ⟨c, hcmem, rfl⟩ := List.mem_map.mp hl
      rw [List.count_append,
        count_x_sepJoinAll c (htokX c (List.dropLast_subset _ hcmem)),
        chunksOf_dropLast_length (k + 1) hkpos (bytes.map hexByte).length _
          le_rfl c hcmem]
      simp [spaces, List.count_replicate]
  · intro hb
    rw [hk]
    have hbne : bytes.map hexByte ≠ [] := by simpa using hb
    obtain ⟨lastc, hlast, hstruct⟩ :=
      specLines_structure (spaces m) (chunksOf (k + 1) (bytes.map hexByte))
        (chunksOf_ne_nil (k + 1) hkpos _ hbne)
    obtain ⟨c, hc1, hc2⟩ :=
      chunksOf_getLast_length (k + 1) hkpos (bytes.map hexByte).length _
        le_rfl hbne
    have hceq : lastc = c := by
      rw [hc1] at hlast
      exact (Option.some.inj hlast).symm
    subst hceq
    refine ⟨spaces m ++ sepJoinLast lastc, ?_, ?_⟩
    · rw [hstruct, List.getLast?_concat]
    · rw [List.count_append,
        count_x_sepJoinLast lastc
          (htokX lastc (List.mem_of_mem_getLast? (by rw [hc1]; rfl)))]
      rw [List.length_map] at hc2
      rw [hc2]
      simp [spaces, List.count_replicate]

/-- Witness for C5 (amended) at the default layout width 120, indentation
4, no left indentation. -/
theorem c5_wrapping_amended_witness :
    valuesPerLine 120 4 0 = (120 - 4 - 0 + 1) / 6 :=
  (c5_wrapping_amended [0xDE, 0xAD, 0xBE, 0xEF] 4 120 4 0 (by decide)
    (by decide) (by decide) (by decide)).1

end BuildPayload

namespace BuildPayload

/-- C6: the prefix derivation strips everything up to and including the
last occurrence of `/` or `\` (whichever occurs later when both are
present; the whole name when neither occurs) and replaces every `.` of the
remaining basename with `_` — proved in general against the spec-side
`afterLastSep` and on the four stated examples. -/
theorem c6_name_resolver :
    (∀ s : List Char,
      pfxFromPath s = (afterLastSep s).map dotToUnderscore) ∧
    pfxFromPath ("a/b/c.bin".toList) = "c_bin".toList ∧
    pfxFromPath ("a\\b\\c.bin".toList) = "c_bin".toList ∧
    pfxFromPath ("x.y.bin".toList) = "x_y_bin".toList ∧
    pfxFromPath ("nameonly".toList) = "nameonly".toList :=
  ⟨pfxFromPath_eq_afterLastSep, by decide, by decide, by decide, by decide⟩

end BuildPayload

namespace BuildPayload

/-- C9 (amended): for every invocation with a non-empty `namespaceName`,
the opening scope line is emitted before any payload blocks, each payload
block is rendered with `leftIndentation = indentation` (shown for the
stdin dispatch), and every nonempty line of a rendered declaration block
begins with its configured left margin — but the per-file source comment
lines of multi-input mode and blank separator lines carry no margin (see
the counterexample). -/
theorem c9_scope_and_margin_amended (deflate : List Nat → List Nat)
    (openF : List Char → Option (List Nat)) (stdinStream : List Nat)
    (junk : List Char → Nat) (stdinJunk : Nat) (inputs : List (List Char))
    (description copyrightMessage : List Char) (noCopyrightMessage : Bool)
    (indentation width : Nat)
    (namespaceName variableName variableType : List Char)
    (sizeVariableName sizeVariableType : List Char) (zlibCompress : Bool)
    (hns : namespaceName ≠ []) :
    (∃ blocks, (buildPayloadHelper deflate openF stdinStream junk stdinJunk
        inputs description copyrightMessage noCopyrightMessage indentation
        width namespaceName variableName variableType sizeVariableName
        sizeVariableType zlibCompress).1 =
      bannerText description copyrightMessage noCopyrightMessage width
        ++ (('n' :: 'a' :: 'm' :: 'e' :: 's' :: 'p' :: 'a' :: 'c' :: 'e' :: [' '])
          ++ namespaceName ++ ('\x7b' :: ['\n'])) ++ blocks) ∧
    (buildPayloadHelper deflate openF stdinStream junk stdinJunk
        [] description copyrightMessage noCopyrightMessage indentation
        width namespaceName variableName variableType sizeVariableName
        sizeVariableType zlibCompress).1 =
      bannerText description copyrightMessage noCopyrightMessage width
        ++ (('n' :: 'a' :: 'm' :: 'e' :: 's' :: 'p' :: 'a' :: 'c' :: 'e' :: [' '])
          ++ namespaceName ++ ('\x7b' :: ['\n']))
        ++ renderDump
          ⟨indentation, indentation, width, [], variableName, variableType,
            sizeVariableName, sizeVariableType, zlibCompress⟩
          (compressStage deflate (readLoop stdinStream stdinJunk) zlibCompress) ∧
    (∀ (cfg : DumpConfig) (data : List Nat),
      '\n' ∉ cfg.variableType → '\n' ∉ cfg.pfx → '\n' ∉ cfg.variableName →
      '\n' ∉ cfg.sizeVariableType → '\n' ∉ cfg.sizeVariableName →
      ∀ l ∈ splitLines (renderDump cfg data), l ≠ [] →
        l.take cfg.leftIndentation = spaces cfg.leftIndentation) := by
  refine ⟨?_, ?_, fun cfg data h1 h2 h3 h4 h5 =>
    renderDump_line_margin cfg data h1 h2 h3 h4 h5⟩
  · simp only [buildPayloadHelper, if_neg hns]
    exact ⟨_, rfl⟩
  · simp only [buildPayloadHelper, if_neg hns, parseAndDumpInput]

/-- Witness for C9 (amended): the namespaced stdin run with default
options opens its scope before the payload block. -/
theorem c9_scope_and_margin_amended_witness :
    ∃ blocks, (buildPayloadHelper (fun b => b) demoOpen [] (fun _ => 0) 0
        ["a.bin".toList, "b.bin".toList] [] [] true 4 120 "N".toList
        "declarations".toList "static const unsigned char".toList
        "declarationsSize".toList "static const unsigned long".toList
        false).1 =
      bannerText [] [] true 120
        ++ (('n' :: 'a' :: 'm' :: 'e' :: 's' :: 'p' :: 'a' :: 'c' :: 'e' :: [' '])
          ++ "N".toList ++ ('\x7b' :: ['\n'])) ++ blocks :=
  (c9_scope_and_margin_amended (fun b => b) demoOpen [] (fun _ => 0) 0
    ["a.bin".toList, "b.bin".toList] [] [] true 4 120 "N".toList
    "declarations".toList "static const unsigned char".toList
    "declarationsSize".toList "static const unsigned long".toList false
    (by decide)).1

end BuildPayload
